import Mathlib

/-
Verification development for the mini-redis key/value server.

Embedded source files:
  - src/main.rs        : shard count N, the hash-based shard index, the sharded
                         store (a vector of mutex-protected hash maps), and the
                         per-connection handler loop process.
  - src/connection.rs  : Connection::read_frame, Connection::parse_frame,
                         Connection::write_frame and Connection::write_decimal.

Modelling conventions:
  - Rust byte sequences (Bytes, Vec<u8>) and Rust String values are both
    modelled as List Nat; a String is represented by its UTF-8 byte sequence,
    so String equality coincides with equality of the byte lists.
  - u64 arithmetic is modelled on Nat with explicit bounds (values < 2 ^ 64)
    where the width matters.
  - The std DefaultHasher is modelled as an arbitrary function h : List Nat →
    Nat whose result is reduced mod 2 ^ 64 (the u64 result of finish). Within
    one process run the hasher is a fixed pure function, which is exactly how
    a Lean function parameter behaves.
  - Fallible Rust code returning Result is modelled with Except String.
  - The frame codec (Frame::check / Frame::parse) and command parsing
    (Command::from_frame) live in the external mini_redis crate and are not
    part of this repository; they are modelled from the specification, as
    marked in their doc comments.
-/

/-- Byte strings: the model of Rust Bytes, Vec<u8>, and (as UTF-8) String. -/
abbrev Bytes := List Nat

/-- The Frame tagged union of protocol messages (spec section 3; the type is
declared by the mini_redis crate and used throughout src). -/
inductive Frame where
  | simple (s : Bytes)
  | error (s : Bytes)
  | integer (n : Nat)
  | bulk (b : Bytes)
  | null
  | array (items : List Frame)

/-- Decimal digit bytes of n, most significant first, with an explicit fuel
argument so the recursion is structural; empty for n = 0. -/
def decDigitsGo : Nat → Nat → Bytes
  | 0, _ => []
  | fuel+1, n => if n = 0 then [] else decDigitsGo fuel (n / 10) ++ [n % 10 + 48]

/-- The decimal text of n as ASCII bytes, exactly as the Rust Display
implementation for unsigned integers prints it. -/
def decBytes (n : Nat) : Bytes :=
  if n = 0 then [48] else decDigitsGo (n + 1) n

/-- Accumulating decimal reader over ASCII digit bytes. -/
def decValAcc (acc : Nat) (l : Bytes) : Nat :=
  l.foldl (fun a b => a * 10 + (b - 48)) acc

theorem decDigitsGo_mem_digit :
    ∀ fuel n b, b ∈ decDigitsGo fuel n → 48 ≤ b ∧ b ≤ 57 := by
  intro fuel
  induction fuel with
  | zero => intro n b hb; simp [decDigitsGo] at hb
  | succ fuel ih =>
    intro n b hb
    by_cases hn : n = 0
    · simp [decDigitsGo, hn] at hb
    · simp only [decDigitsGo, hn, if_false, List.mem_append, List.mem_singleton] at hb
      rcases hb with hb | hb
      · exact ih _ _ hb
      · subst hb
        have := Nat.mod_lt n (show 0 < 10 by norm_num)
        omega

theorem decBytes_mem_digit : ∀ n b, b ∈ decBytes n → 48 ≤ b ∧ b ≤ 57 := by
  intro n b hb
  by_cases hn : n = 0
  · simp [decBytes, hn] at hb
    omega
  · simp only [decBytes, hn, if_false] at hb
    exact decDigitsGo_mem_digit _ _ _ hb

theorem decBytes_ne_nil : ∀ n, decBytes n ≠ [] := by
  intro n
  by_cases hn : n = 0
  · simp [decBytes, hn]
  · have h1 : n ≤ n + 1 := Nat.le_succ n
    simp only [decBytes, hn, if_false]
    cases hfuel : decDigitsGo (n + 1) n with
    | nil =>
      exfalso
      simp only [decDigitsGo, hn, if_false] at hfuel
      exact List.append_ne_nil_of_right_ne_nil _ (by simp) hfuel
    | cons a l => simp

theorem decValAcc_append (acc : Nat) (l1 l2 : Bytes) :
    decValAcc acc (l1 ++ l2) = decValAcc (decValAcc acc l1) l2 := by
  simp [decValAcc, List.foldl_append]

theorem decValAcc_decDigitsGo :
    ∀ fuel n acc, n ≤ fuel →
      decValAcc acc (decDigitsGo fuel n) =
        acc * 10 ^ (decDigitsGo fuel n).length + n := by
  intro fuel
  induction fuel with
  | zero =>
    intro n acc hn
    interval_cases n
    simp [decDigitsGo, decValAcc]
  | succ fuel ih =>
    intro n acc hn
    by_cases h0 : n = 0
    · simp [decDigitsGo, h0, decValAcc]
    · have hdiv : n / 10 ≤ fuel := by
        have := Nat.div_lt_self (Nat.pos_of_ne_zero h0) (show 1 < 10 by norm_num)
        omega
      simp only [decDigitsGo, h0, if_false]
      rw [decValAcc_append, ih _ _ hdiv]
      simp only [decValAcc, List.foldl_cons, List.foldl_nil, List.length_append,
        List.length_singleton]
      have hmod : n % 10 + 48 - 48 = n % 10 := by omega
      rw [hmod, pow_succ]
      have := Nat.div_add_mod n 10
      ring_nf
      omega

theorem decValAcc_decBytes (n : Nat) : decValAcc 0 (decBytes n) = n := by
  by_cases hn : n = 0
  · simp [decBytes, hn, decValAcc]
  · simp only [decBytes, hn, if_false]
    rw [decValAcc_decDigitsGo _ _ _ (Nat.le_succ n)]
    simp

theorem decDigitsGo_length_le :
    ∀ d fuel n, n ≤ fuel → n < 10 ^ d → (decDigitsGo fuel n).length ≤ d := by
  intro d
  induction d with
  | zero =>
    intro fuel n hfuel hd
    have h0 : n = 0 := by simpa using hd
    cases fuel with
    | zero => simp [decDigitsGo]
    | succ fuel => simp [decDigitsGo, h0]
  | succ d ih =>
    intro fuel n hfuel hd
    cases fuel with
    | zero => simp [decDigitsGo]
    | succ fuel =>
      by_cases h0 : n = 0
      · simp [decDigitsGo, h0]
      · simp only [decDigitsGo, h0, if_false, List.length_append, List.length_singleton]
        have hdivfuel : n / 10 ≤ fuel := by
          have := Nat.div_lt_self (Nat.pos_of_ne_zero h0) (show 1 < 10 by norm_num)
          omega
        have hdivpow : n / 10 < 10 ^ d := by
          rw [Nat.div_lt_iff_lt_mul (show 0 < 10 by norm_num)]
          calc n < 10 ^ (d + 1) := hd
          _ = 10 ^ d * 10 := by rw [pow_succ]
        have := ih fuel (n / 10) hdivfuel hdivpow
        omega

theorem decBytes_length_le (d : Nat) (n : Nat) (hd : 0 < d) (hn : n < 10 ^ d) :
    (decBytes n).length ≤ d := by
  by_cases h0 : n = 0
  · simp only [decBytes, h0, if_true]
    simpa using hd
  · simp only [decBytes, h0, if_false]
    exact decDigitsGo_length_le d (n + 1) n (Nat.le_succ n) hn

/-- CR is never among the digit bytes of a decimal number. -/
theorem decBytes_no_cr (n : Nat) : ∀ b ∈ decBytes n, b ≠ 13 := by
  intro b hb
  have := decBytes_mem_digit n b hb
  omega

mutual

/-- Wire encoding of one frame, written from the words of spec section 4.1
(the refinement reference for write_frame and the decoder round trip):
Simple is "+<text>CRLF", Error is "-<text>CRLF", Integer is ":<decimal>CRLF",
Null is the literal "$-1CRLF", Bulk is "$<len>CRLF<raw bytes>CRLF", Array is
"*<count>CRLF" followed by the encodings of the items in order. -/
def encodeSpec : Frame → Bytes
  | .simple s => 43 :: (s ++ [13, 10])
  | .error s => 45 :: (s ++ [13, 10])
  | .integer n => 58 :: (decBytes n ++ [13, 10])
  | .null => [36, 45, 49, 13, 10]
  | .bulk b => 36 :: (decBytes b.length ++ [13, 10] ++ b ++ [13, 10])
  | .array items => 42 :: (decBytes items.length ++ [13, 10] ++ encodeList items)

/-- Concatenated encodings of a list of frames, in order, no separator. -/
def encodeList : List Frame → Bytes
  | [] => []
  | f :: fs => encodeSpec f ++ encodeList fs

end

mutual

/-- Well-formed frames per the spec data model: Simple and Error text has no
embedded CR or LF, and every numeric field (Integer value, Bulk byte length,
Array count) fits in the u64 wire type. -/
def wfFrame : Frame → Bool
  | .simple s => s.all (fun b => decide (b ≠ 13) && decide (b ≠ 10))
  | .error s => s.all (fun b => decide (b ≠ 13) && decide (b ≠ 10))
  | .integer n => decide (n < 2 ^ 64)
  | .bulk b => decide (b.length < 2 ^ 64)
  | .null => true
  | .array items => decide (items.length < 2 ^ 64) && wfList items

def wfList : List Frame → Bool
  | [] => true
  | f :: fs => wfFrame f && wfList fs

end

mutual

/-- Frames all of whose numeric fields print in at most 12 decimal digits,
the capacity of the conversion buffer in Connection::write_decimal. -/
def fitsFrame : Frame → Bool
  | .simple _ => true
  | .error _ => true
  | .integer n => decide (n < 10 ^ 12)
  | .bulk b => decide (b.length < 10 ^ 12)
  | .null => true
  | .array items => decide (items.length < 10 ^ 12) && fitsList items

def fitsList : List Frame → Bool
  | [] => true
  | f :: fs => fitsFrame f && fitsList fs

end

/-- Embedding of Connection::write_decimal (src/connection.rs lines 99-112):
the value is formatted in decimal into a 12-byte conversion buffer through a
Cursor; if the text needs more than 12 bytes the inner write_all hits the end
of the buffer and fails with a WriteZero error, otherwise the digit bytes
followed by CRLF are emitted. -/
def write_decimal (val : Nat) : Except String Bytes :=
  if (decBytes val).length ≤ 12 then .ok (decBytes val ++ [13, 10])
  else .error "failed to write whole buffer"

mutual

/-- Embedding of Connection::write_frame (src/connection.rs lines 53-98) as
the byte sequence it emits on the stream: one arm per Frame variant, numeric
fields written through write_decimal, Array recursing over its items. -/
def write_frame : Frame → Except String Bytes
  | .simple val => .ok (43 :: (val ++ [13, 10]))
  | .error val => .ok (45 :: (val ++ [13, 10]))
  | .integer val =>
    match write_decimal val with
    | .error e => .error e
    | .ok d => .ok (58 :: d)
  | .null => .ok [36, 45, 49, 13, 10]
  | .bulk val =>
    match write_decimal val.length with
    | .error e => .error e
    | .ok d => .ok (36 :: (d ++ val ++ [13, 10]))
  | .array items =>
    match write_decimal items.length with
    | .error e => .error e
    | .ok d =>
      match write_items items with
      | .error e => .error e
      | .ok body => .ok (42 :: (d ++ body))

/-- The for-loop over Array items inside write_frame: each item is written in
order by a recursive write_frame call and the bytes are concatenated. -/
def write_items : List Frame → Except String Bytes
  | [] => .ok []
  | f :: fs =>
    match write_frame f with
    | .error e => .error e
    | .ok x =>
      match write_items fs with
      | .error e => .error e
      | .ok y => .ok (x ++ y)

end

theorem write_decimal_ok (n : Nat) (hn : n < 10 ^ 12) :
    write_decimal n = .ok (decBytes n ++ [13, 10]) := by
  have := decBytes_length_le 12 n (by norm_num) hn
  simp [write_decimal, this]

mutual

theorem write_frame_encodes :
    ∀ f : Frame, fitsFrame f = true → write_frame f = .ok (encodeSpec f)
  | .simple s, _ => by simp [write_frame, encodeSpec]
  | .error s, _ => by simp [write_frame, encodeSpec]
  | .integer n, hf => by
    have hn : n < 10 ^ 12 := by simpa [fitsFrame] using hf
    simp [write_frame, encodeSpec, write_decimal_ok n hn]
  | .null, _ => by simp [write_frame, encodeSpec]
  | .bulk b, hf => by
    have hn : b.length < 10 ^ 12 := by simpa [fitsFrame] using hf
    simp [write_frame, encodeSpec, write_decimal_ok _ hn]
  | .array items, hf => by
    have hn : items.length < 10 ^ 12 := by
      have := hf
      simp only [fitsFrame, Bool.and_eq_true, decide_eq_true_eq] at this
      exact this.1
    have hitems : fitsList items = true := by
      have := hf
      simp only [fitsFrame, Bool.and_eq_true] at this
      exact this.2
    simp [write_frame, encodeSpec, write_decimal_ok _ hn,
      write_items_encodes items hitems]

theorem write_items_encodes :
    ∀ fs : List Frame, fitsList fs = true → write_items fs = .ok (encodeList fs)
  | [], _ => by simp [write_items, encodeList]
  | f :: fs, hf => by
    have h1 : fitsFrame f = true := by
      have := hf
      simp only [fitsList, Bool.and_eq_true] at this
      exact this.1
    have h2 : fitsList fs = true := by
      have := hf
      simp only [fitsList, Bool.and_eq_true] at this
      exact this.2
    simp [write_items, write_frame_encodes f h1, write_items_encodes fs h2,
      encodeList]

end

/-- Modelled from the spec: the line scanner of the absent frame module (the
get_line step behind Frame::check and Frame::parse). It finds the first CR-LF
pair, returning the bytes before it and the bytes after it, and returns none
(the Incomplete signal) when the buffer ends before a CR-LF pair is found. -/
def readLine : Bytes → Option (Bytes × Bytes)
  | [] => none
  | b :: rest =>
    if b = 13 ∧ rest.head? = some 10 then some ([], rest.tail)
    else
      match readLine rest with
      | none => none
      | some (line, r) => some (b :: line, r)

/-- Modelled from the spec: decimal field reader of the absent frame module.
A numeric field must be a nonempty run of ASCII digits whose value fits in
u64; anything else (including overflow) is rejected, per section 4.1. -/
def parseDec (line : Bytes) : Option Nat :=
  if line = [] then none
  else if line.all (fun b => 48 ≤ b && b ≤ 57) then
    if decValAcc 0 line < 2 ^ 64 then some (decValAcc 0 line) else none
  else none

/-- Result of one decoding attempt: a complete frame with the unconsumed
tail, a complete list of frames (inside an Array) with the tail, the
Incomplete signal, or a protocol error. -/
inductive DRes where
  | doneF (f : Frame) (rest : Bytes)
  | doneL (items : List Frame) (rest : Bytes)
  | incomplete
  | bad

/-- Modelled from the spec: the frame decoder of the absent frame module
(Frame::check plus Frame::parse of the mini_redis crate, fused: check walks
the buffer to the end of one frame and parse rebuilds it over the same bytes,
so together they are one prefix decoder returning the frame and the
unconsumed tail). Mode none decodes one frame by its leading type byte; mode
some count decodes count consecutive frames of an Array body. The fuel
argument only makes the nesting recursion structural; every call decrements
it and one level of frame structure consumes at least one buffered byte, so
fuel larger than the buffer length never runs out. -/
def decodeAux : Nat → Option Nat → Bytes → DRes
  | 0, _, _ => .incomplete
  | _+1, some 0, input => .doneL [] input
  | fuel+1, some (count+1), input =>
    match decodeAux fuel none input with
    | .doneF f rest =>
      match decodeAux fuel (some count) rest with
      | .doneL items rest2 => .doneL (f :: items) rest2
      | .incomplete => .incomplete
      | _ => .bad
    | .incomplete => .incomplete
    | _ => .bad
  | fuel+1, none, input =>
    match input with
    | [] => .incomplete
    | b :: rest =>
      if b = 43 then
        match readLine rest with
        | none => .incomplete
        | some (line, r) => .doneF (.simple line) r
      else if b = 45 then
        match readLine rest with
        | none => .incomplete
        | some (line, r) => .doneF (.error line) r
      else if b = 58 then
        match readLine rest with
        | none => .incomplete
        | some (line, r) =>
          match parseDec line with
          | some n => .doneF (.integer n) r
          | none => .bad
      else if b = 36 then
        match readLine rest with
        | none => .incomplete
        | some (line, r) =>
          if line = [45, 49] then .doneF .null r
          else
            match parseDec line with
            | none => .bad
            | some len =>
              if len + 2 ≤ r.length then .doneF (.bulk (r.take len)) (r.drop (len + 2))
              else .incomplete
      else if b = 42 then
        match readLine rest with
        | none => .incomplete
        | some (line, r) =>
          match parseDec line with
          | none => .bad
          | some count =>
            match decodeAux fuel (some count) r with
            | .doneL items rest2 => .doneF (.array items) rest2
            | .incomplete => .incomplete
            | _ => .bad
      else .bad

/-- Embedding of Connection::parse_frame (src/connection.rs lines 37-52): try
the codec against the current buffer; on a complete frame, advance the buffer
past exactly the bytes the check cursor walked and return the frame with the
remaining buffer; on the Incomplete signal report no frame with the buffer
unchanged; on any other codec error fail. The returned byte list is the state
of self.buffer after the call. -/
def parse_frame (buffer : Bytes) : Except String (Option Frame × Bytes) :=
  match decodeAux (buffer.length + 1) none buffer with
  | .doneF f rest => .ok (some f, rest)
  | .incomplete => .ok (none, buffer)
  | _ => .error "protocol error"

/-- Embedding of Connection::read_frame (src/connection.rs lines 19-36). The
stream is modelled by the list of byte chunks successive read_buf calls
yield; an empty chunk, or running out of chunks, is a zero-byte read (peer
closed). The loop first tries parse_frame on the buffer, otherwise performs
one read: zero new bytes with an empty buffer is a clean end of session
(no frame), zero new bytes with a nonempty buffer is the connection reset
error, and fresh bytes are appended before retrying. -/
def read_frame : Bytes → List Bytes → Except String (Option Frame × Bytes)
  | buffer, chunks =>
    match parse_frame buffer with
    | .error e => .error e
    | .ok (some f, rest) => .ok (some f, rest)
    | .ok (none, _) =>
      match chunks with
      | [] =>
        if buffer = [] then .ok (none, buffer)
        else .error "connection reset by peer"
      | c :: cs =>
        if c = [] then
          if buffer = [] then .ok (none, buffer)
          else .error "connection reset by peer"
        else read_frame (buffer ++ c) cs

mutual

/-- Nesting fuel a frame needs in decodeAux: one step for the frame itself
plus, for an Array, the fuel of its body. -/
def fuelOf : Frame → Nat
  | .simple _ => 1
  | .error _ => 1
  | .integer _ => 1
  | .bulk _ => 1
  | .null => 1
  | .array items => 1 + fuelOfList items

def fuelOfList : List Frame → Nat
  | [] => 1
  | f :: fs => 1 + max (fuelOf f) (fuelOfList fs)

end

theorem encodeSpec_length_pos (f : Frame) : 0 < (encodeSpec f).length := by
  cases f <;> simp [encodeSpec]

mutual

theorem fuelOf_le_length :
    ∀ f : Frame, fuelOf f ≤ (encodeSpec f).length
  | .simple s => by simp [fuelOf, encodeSpec]
  | .error s => by simp [fuelOf, encodeSpec]
  | .integer n => by simp [fuelOf, encodeSpec]
  | .bulk b => by simp [fuelOf, encodeSpec]
  | .null => by simp [fuelOf, encodeSpec]
  | .array items => by
    have hb := fuelOfList_le_length items
    have hd : 0 < (decBytes items.length).length :=
      List.length_pos.mpr (decBytes_ne_nil _)
    simp only [fuelOf, encodeSpec, List.length_cons, List.length_append]
    omega

theorem fuelOfList_le_length :
    ∀ fs : List Frame, fuelOfList fs ≤ 1 + (encodeList fs).length
  | [] => by simp [fuelOfList, encodeList]
  | f :: fs => by
    have h1 := fuelOf_le_length f
    have h2 := fuelOfList_le_length fs
    have h3 := encodeSpec_length_pos f
    simp only [fuelOfList, encodeList, List.length_append]
    omega

end

theorem fuelOf_pos (f : Frame) : 1 ≤ fuelOf f := by
  cases f <;> simp [fuelOf]

theorem readLine_append (line r : Bytes) (h : ∀ b ∈ line, b ≠ 13) :
    readLine (line ++ 13 :: 10 :: r) = some (line, r) := by
  induction line with
  | nil => simp [readLine]
  | cons b l ih =>
    have hb : b ≠ 13 := h b (List.mem_cons_self b l)
    have hl : ∀ x ∈ l, x ≠ 13 := fun x hx => h x (List.mem_cons_of_mem b hx)
    simp [readLine, hb, ih hl]

theorem parseDec_decBytes (n : Nat) (hn : n < 2 ^ 64) :
    parseDec (decBytes n) = some n := by
  have hne : decBytes n ≠ [] := decBytes_ne_nil n
  have hdig : (decBytes n).all (fun b => 48 ≤ b && b ≤ 57) = true := by
    rw [List.all_eq_true]
    intro b hb
    have := decBytes_mem_digit n b hb
    simp only [Bool.and_eq_true, decide_eq_true_eq]
    omega
  have hval := decValAcc_decBytes n
  simp [parseDec, hne, hdig, hval]
  omega

theorem decBytes_ne_neg_one (n : Nat) : decBytes n ≠ [45, 49] := by
  intro h
  have h45 : 45 ∈ decBytes n := by rw [h]; simp
  have := decBytes_mem_digit n 45 h45
  omega

mutual

theorem decode_encodeSpec :
    ∀ (f : Frame) (rest : Bytes) (fuel : Nat), wfFrame f = true → fuelOf f ≤ fuel →
      decodeAux fuel none (encodeSpec f ++ rest) = .doneF f rest
  | f, rest, 0, hwf, hfuel => by
    have := fuelOf_pos f
    omega
  | .simple s, rest, fuel+1, hwf, hfuel => by
    have h13 : ∀ b ∈ s, b ≠ 13 := by
      intro b hb
      have := List.all_eq_true.mp hwf b hb
      simp only [Bool.and_eq_true, decide_eq_true_eq] at this
      exact this.1
    have hld := readLine_append s rest h13
    simp only [encodeSpec, List.cons_append, List.append_assoc, List.cons_append,
      List.nil_append]
    simp [decodeAux, hld]
  | .error s, rest, fuel+1, hwf, hfuel => by
    have h13 : ∀ b ∈ s, b ≠ 13 := by
      intro b hb
      have := List.all_eq_true.mp hwf b hb
      simp only [Bool.and_eq_true, decide_eq_true_eq] at this
      exact this.1
    have hld := readLine_append s rest h13
    simp only [encodeSpec, List.cons_append, List.append_assoc, List.cons_append,
      List.nil_append]
    simp [decodeAux, hld]
  | .integer n, rest, fuel+1, hwf, hfuel => by
    have hn : n < 2 ^ 64 := by simpa [wfFrame] using hwf
    have hld := readLine_append (decBytes n) rest (decBytes_no_cr n)
    simp only [encodeSpec, List.cons_append, List.append_assoc, List.cons_append,
      List.nil_append]
    simp [decodeAux, hld, parseDec_decBytes n hn]
  | .null, rest, fuel+1, hwf, hfuel => by
    simp only [encodeSpec, List.cons_append, List.nil_append]
    simp [decodeAux, readLine]
  | .bulk b, rest, fuel+1, hwf, hfuel => by
    have hn : b.length < 2 ^ 64 := by simpa [wfFrame] using hwf
    have hld := readLine_append (decBytes b.length) (b ++ 13 :: 10 :: rest)
      (decBytes_no_cr _)
    have htake : (b ++ 13 :: 10 :: rest).take b.length = b := by
      exact List.take_left b (13 :: 10 :: rest)
    have hdrop : (b ++ 13 :: 10 :: rest).drop (b.length + 2) = rest := by
      have : b ++ 13 :: 10 :: rest = (b ++ [13, 10]) ++ rest := by simp
      rw [this]
      exact List.drop_left' (by simp)
    have hlen : b.length + 2 ≤ (b ++ 13 :: 10 :: rest).length := by simp
    simp only [encodeSpec, List.cons_append, List.append_assoc, List.cons_append,
      List.nil_append]
    simp [decodeAux, hld, decBytes_ne_neg_one, parseDec_decBytes _ hn, hlen,
      htake, hdrop]
  | .array items, rest, fuel+1, hwf, hfuel => by
    have hn : items.length < 2 ^ 64 := by
      have := hwf
      simp only [wfFrame, Bool.and_eq_true, decide_eq_true_eq] at this
      exact this.1
    have hwl : wfList items = true := by
      have := hwf
      simp only [wfFrame, Bool.and_eq_true] at this
      exact this.2
    have hfl : fuelOfList items ≤ fuel := by
      simp only [fuelOf] at hfuel
      omega
    have hld := readLine_append (decBytes items.length)
      (encodeList items ++ rest) (decBytes_no_cr _)
    have hbody := decode_encodeList items rest fuel hwl hfl
    simp only [encodeSpec, List.cons_append, List.append_assoc, List.cons_append,
      List.nil_append]
    simp [decodeAux, hld, parseDec_decBytes _ hn, hbody]

theorem decode_encodeList :
    ∀ (fs : List Frame) (rest : Bytes) (fuel : Nat), wfList fs = true →
      fuelOfList fs ≤ fuel →
      decodeAux fuel (some fs.length) (encodeList fs ++ rest) = .doneL fs rest
  | fs, rest, 0, hwf, hfuel => by
    have : 1 ≤ fuelOfList fs := by cases fs <;> simp [fuelOfList]
    omega
  | [], rest, fuel+1, hwf, hfuel => by
    simp [encodeList, decodeAux]
  | f :: fs, rest, fuel+1, hwf, hfuel => by
    have h1 : wfFrame f = true := by
      have := hwf
      simp only [wfList, Bool.and_eq_true] at this
      exact this.1
    have h2 : wfList fs = true := by
      have := hwf
      simp only [wfList, Bool.and_eq_true] at this
      exact this.2
    have hf1 : fuelOf f ≤ fuel := by
      simp only [fuelOfList] at hfuel
      omega
    have hf2 : fuelOfList fs ≤ fuel := by
      simp only [fuelOfList] at hfuel
      omega
    have hhead := decode_encodeSpec f (encodeList fs ++ rest) fuel h1 hf1
    have htail := decode_encodeList fs rest fuel h2 hf2
    simp only [encodeList, List.append_assoc, List.length_cons]
    simp [decodeAux, hhead, htail]

end

/-- Embedding of the shard count constant N (src/main.rs line 10, a u8). -/
def N : Nat := 32

/-- One shard: the HashMap of String keys to Vec byte values behind one
Mutex, modelled as an association list with lookup and overwriting insert. -/
abbrev Shard := List (Bytes × Bytes)

/-- The sharded database: the Vec of N shards behind the Arc
(type Shardeddb in src/main.rs line 7). -/
abbrev Db := List Shard

/-- Embedding of new_sharded_db (src/main.rs lines 15-21): N empty maps. -/
def new_sharded_db : Db := List.replicate N []

/-- Embedding of index (src/main.rs lines 23-27): hash the key with the
process-wide DefaultHasher h, truncate finish to u64, reduce mod N. -/
def index (h : Bytes → Nat) (key : Bytes) : Nat := h key % 2 ^ 64 % N

/-- HashMap lookup: the value bound to the key, if any. -/
def shardGet : Shard → Bytes → Option Bytes
  | [], _ => none
  | (k2, v) :: rest, k => if k2 = k then some v else shardGet rest k

/-- HashMap insert: bind the key to the value, replacing any old binding. -/
def shardInsert : Shard → Bytes → Bytes → Shard
  | [], k, v => [(k, v)]
  | (k2, v2) :: rest, k, v =>
    if k2 = k then (k, v) :: rest else (k2, v2) :: shardInsert rest k v

/-- Store read as the Get arm of process performs it (src/main.rs lines
58-68): pick the shard at index h key, look the key up in it. -/
def dbGet (h : Bytes → Nat) (db : Db) (key : Bytes) : Option Bytes :=
  shardGet (db.getD (index h key) []) key

/-- Store write as the Set arm of process performs it (src/main.rs lines
52-57): pick the shard at index h key, insert the binding there. -/
def dbSet (h : Bytes → Nat) (db : Db) (key value : Bytes) : Db :=
  db.set (index h key) (shardInsert (db.getD (index h key) []) key value)

/-- The typed command a top-level frame parses to: Get, Set, or any other
(unimplemented) command name, per the spec data model in section 3. -/
inductive Command where
  | get (key : Bytes)
  | set (key : Bytes) (value : Bytes)
  | other (name : Bytes)

/-- ASCII uppercasing of one byte, for the case-insensitive command match. -/
def toUpperByte (b : Nat) : Nat := if 97 ≤ b ∧ b ≤ 122 then b - 32 else b

/-- ASCII uppercasing of a byte string. -/
def upperBytes (s : Bytes) : Bytes := s.map toUpperByte

/-- Modelled from the spec: Command::from_frame of the absent mini_redis
crate (spec section 4.3). The top-level frame must be an Array of Bulk
frames; element 0 is the command name matched case-insensitively against
GET and SET; a wrong argument count or a non-Bulk argument is an error; an
unrecognized name is the other-unimplemented command. -/
def from_frame : Frame → Except String Command
  | .array (.bulk name :: args) =>
    if upperBytes name = [71, 69, 84] then
      match args with
      | [.bulk k] => .ok (.get k)
      | _ => .error "wrong number of arguments"
    else if upperBytes name = [83, 69, 84] then
      match args with
      | [.bulk k, .bulk v] => .ok (.set k v)
      | _ => .error "wrong number of arguments"
    else .ok (.other name)
  | _ => .error "protocol error; expected array of bulk frames"

/-- Result of handling one request frame in process: a reply frame together
with the store left behind, or a process abort (a Rust panic, from the
unwrap on Command::from_frame or from the unimplemented wildcard arm). -/
inductive Outcome where
  | reply (f : Frame) (db : Db)
  | panicked (msg : String)

/-- Embedding of one iteration of the request loop in process (src/main.rs
lines 49-73): parse the frame into a command (unwrap aborts on error), then
Set inserts and replies Simple OK, Get replies Bulk value or Null, and any
other command hits the wildcard arm at line 70, aborting the process. -/
def process_step (h : Bytes → Nat) (db : Db) (frame : Frame) : Outcome :=
  match from_frame frame with
  | .error e => .panicked e
  | .ok (.set k v) => .reply (.simple [79, 75]) (dbSet h db k v)
  | .ok (.get k) =>
    match dbGet h db k with
    | some value => .reply (.bulk value) db
    | none => .reply .null db
  | .ok (.other _) => .panicked "unimplemented"

/-- One observable input/output action of the handler loop on its
connection: reading a request frame, or writing a reply frame. -/
inductive Ev where
  | readEv (f : Frame)
  | writeEv (f : Frame)

/-- Embedding of the request loop of process (src/main.rs lines 44-76) over
the sequence of frames the connection delivers: each iteration reads one
frame, dispatches it, and writes the reply before the next read. The result
is the ordered event trace, the final store, and the abort message if the
loop died. -/
def process (h : Bytes → Nat) (db : Db) : List Frame → List Ev × Db × Option String
  | [] => ([], db, none)
  | f :: fs =>
    match process_step h db f with
    | .panicked m => ([.readEv f], db, some m)
    | .reply r db2 =>
      (.readEv f :: .writeEv r :: (process h db2 fs).1, (process h db2 fs).2)

/-- The reply frames process produces for a frame sequence, in order. -/
def replies (h : Bytes → Nat) (db : Db) : List Frame → List Frame
  | [] => []
  | f :: fs =>
    match process_step h db f with
    | .panicked _ => []
    | .reply r db2 => r :: replies h db2 fs

/-- Strict request/reply alternation: read the first request, write its
reply, and only then move to the next request. -/
def interleave : List Frame → List Frame → List Ev
  | [], _ => []
  | _, [] => []
  | f :: fs, r :: rs => .readEv f :: .writeEv r :: interleave fs rs

/-- A frame that parses to an implemented command (a Get or a Set). -/
def validReq (f : Frame) : Bool :=
  match from_frame f with
  | .ok (.get _) => true
  | .ok (.set _ _) => true
  | _ => false

/-- A concrete stand-in hasher for witness instances. -/
def h0 : Bytes → Nat := fun _ => 0

theorem getD_set_self :
    ∀ (db : Db) (i : Nat) (s : Shard), i < db.length →
      (db.set i s).getD i [] = s
  | [], i, s, h => by simp at h
  | x :: xs, 0, s, h => by simp
  | x :: xs, i+1, s, h => by
    simp only [List.set_cons_succ, List.getD_cons_succ]
    exact getD_set_self xs i s (by simpa using h)

theorem getD_set_ne :
    ∀ (db : Db) (i j : Nat) (s : Shard), i ≠ j →
      (db.set i s).getD j [] = db.getD j [] := by
  intro db
  induction db with
  | nil => intro i j s hij; simp
  | cons x xs ih =>
    intro i j s hij
    cases i with
    | zero =>
      cases j with
      | zero => exact absurd rfl hij
      | succ j => simp
    | succ i =>
      cases j with
      | zero => simp
      | succ j =>
        simp only [List.set_cons_succ, List.getD_cons_succ]
        exact ih i j s (by omega)

theorem shardGet_shardInsert_self :
    ∀ (s : Shard) (k v : Bytes), shardGet (shardInsert s k v) k = some v := by
  intro s
  induction s with
  | nil => intro k v; simp [shardInsert, shardGet]
  | cons p rest ih =>
    intro k v
    by_cases hk : p.1 = k
    · simp [shardInsert, hk, shardGet]
    · simp only [shardInsert, hk, if_false, shardGet]
      exact ih k v

theorem shardGet_shardInsert_ne :
    ∀ (s : Shard) (k v k2 : Bytes), k2 ≠ k →
      shardGet (shardInsert s k v) k2 = shardGet s k2 := by
  intro s
  induction s with
  | nil =>
    intro k v k2 hne
    have hkk : ¬ (k = k2) := fun hx => hne hx.symm
    simp [shardInsert, shardGet, hkk]
  | cons p rest ih =>
    intro k v k2 hne
    by_cases hk : p.1 = k
    · simp only [shardInsert, hk, if_true, shardGet]
      have : ¬ (k = k2) := fun h => hne h.symm
      simp [this, hk]
    · simp only [shardInsert, hk, if_false, shardGet]
      by_cases hk2 : p.1 = k2
      · simp [hk2]
      · simp [hk2, ih k v k2 hne]

theorem index_lt (h : Bytes → Nat) (key : Bytes) : index h key < N :=
  Nat.mod_lt _ (by norm_num [N])

theorem getD_replicate_nil :
    ∀ (n i : Nat), (List.replicate n ([] : Shard)).getD i [] = [] := by
  intro n
  induction n with
  | zero => intro i; simp
  | succ n ih =>
    intro i
    cases i with
    | zero => simp [List.replicate]
    | succ i => simp [List.replicate, ih]

theorem dbGet_new (h : Bytes → Nat) (k : Bytes) :
    dbGet h new_sharded_db k = none := by
  simp [dbGet, new_sharded_db, getD_replicate_nil, shardGet]

theorem length_dbSet (h : Bytes → Nat) (db : Db) (k v : Bytes) :
    (dbSet h db k v).length = db.length := by
  simp [dbSet]

theorem length_new_sharded_db : new_sharded_db.length = N := by
  simp [new_sharded_db]

theorem dbGet_dbSet_self (h : Bytes → Nat) (db : Db) (k v : Bytes)
    (hlen : db.length = N) : dbGet h (dbSet h db k v) k = some v := by
  have hidx : index h k < db.length := by rw [hlen]; exact index_lt h k
  simp only [dbGet, dbSet, getD_set_self db (index h k) _ hidx]
  exact shardGet_shardInsert_self _ k v

theorem dbGet_dbSet_ne (h : Bytes → Nat) (db : Db) (k v k2 : Bytes)
    (hlen : db.length = N) (hne : k2 ≠ k) :
    dbGet h (dbSet h db k v) k2 = dbGet h db k2 := by
  by_cases hidx : index h k2 = index h k
  · have hlt : index h k < db.length := by rw [hlen]; exact index_lt h k
    simp only [dbGet, dbSet, hidx, getD_set_self db (index h k) _ hlt]
    exact shardGet_shardInsert_ne _ k v k2 hne
  · simp only [dbGet, dbSet]
    rw [getD_set_ne db (index h k) (index h k2) _ (fun hx => hidx hx.symm)]

theorem dbGet_foldl_ne (h : Bytes → Nat) (k : Bytes) :
    ∀ (sets : List (Bytes × Bytes)) (db : Db), db.length = N →
      (∀ p ∈ sets, p.1 ≠ k) →
      dbGet h (sets.foldl (fun d p => dbSet h d p.1 p.2) db) k = dbGet h db k := by
  intro sets
  induction sets with
  | nil => intro db hlen hne; simp
  | cons p ps ih =>
    intro db hlen hne
    have hp : p.1 ≠ k := hne p (List.mem_cons_self p ps)
    have hps : ∀ q ∈ ps, q.1 ≠ k := fun q hq => hne q (List.mem_cons_of_mem p hq)
    have hlen2 : (dbSet h db p.1 p.2).length = N := by
      rw [length_dbSet]; exact hlen
    simp only [List.foldl_cons]
    rw [ih (dbSet h db p.1 p.2) hlen2 hps]
    exact dbGet_dbSet_ne h db p.1 p.2 k hlen (fun hkk => hp hkk.symm)

/-- C1: for every GET command handled by the server, a key present in the
store is answered with Bulk of the value currently mapped to it, and a key
that is absent (in particular one never written by any Set since the store
was created) is answered with Null, the store being read through the shard
the key hashes to (src/main.rs lines 58-68). -/
theorem c1_get_semantics :
    (∀ (h : Bytes → Nat) (db : Db) (f : Frame) (k v : Bytes),
      from_frame f = .ok (.get k) → dbGet h db k = some v →
      process_step h db f = .reply (.bulk v) db)
    ∧ (∀ (h : Bytes → Nat) (db : Db) (f : Frame) (k : Bytes),
      from_frame f = .ok (.get k) → dbGet h db k = none →
      process_step h db f = .reply .null db)
    ∧ (∀ (h : Bytes → Nat) (sets : List (Bytes × Bytes)) (k : Bytes),
      (∀ p ∈ sets, p.1 ≠ k) →
      dbGet h (sets.foldl (fun d p => dbSet h d p.1 p.2) new_sharded_db) k
        = none) := by
  refine ⟨?_, ?_, ?_⟩
  · intro h db f k v hff hget
    simp [process_step, hff, hget]
  · intro h db f k hff hget
    simp [process_step, hff, hget]
  · intro h sets k hne
    rw [dbGet_foldl_ne h k sets new_sharded_db length_new_sharded_db hne]
    exact dbGet_new h k

theorem c1_get_semantics_witness :
    process_step h0 (dbSet h0 new_sharded_db [107] [118])
        (.array [.bulk [71, 69, 84], .bulk [107]])
      = .reply (.bulk [118]) (dbSet h0 new_sharded_db [107] [118])
    ∧ process_step h0 new_sharded_db (.array [.bulk [103, 101, 116], .bulk [107]])
      = .reply .null new_sharded_db
    ∧ dbGet h0
        ([([97], [1])].foldl (fun d p => dbSet h0 d p.1 p.2) new_sharded_db) [107]
      = none :=
  ⟨c1_get_semantics.1 h0 _ _ [107] [118] (by rfl) (by rfl),
   c1_get_semantics.2.1 h0 _ _ [107] (by rfl) (by rfl),
   c1_get_semantics.2.2 h0 [([97], [1])] [107] (by decide)⟩

/-- C2: every SET command unconditionally inserts or overwrites the binding
in the shard the key hashes to and replies Simple OK; a Get after a Set
returns the written value; of two Sets to the same key the later one wins;
and setting the empty value yields Bulk of the empty byte string on a later
Get, which is a different frame from Null (src/main.rs lines 52-57). -/
theorem c2_set_semantics :
    (∀ (h : Bytes → Nat) (db : Db) (f : Frame) (k v : Bytes),
      from_frame f = .ok (.set k v) →
      process_step h db f = .reply (.simple [79, 75]) (dbSet h db k v))
    ∧ (∀ (h : Bytes → Nat) (db : Db) (k v : Bytes), db.length = N →
      dbGet h (dbSet h db k v) k = some v)
    ∧ (∀ (h : Bytes → Nat) (db : Db) (k v1 v2 : Bytes), db.length = N →
      dbGet h (dbSet h (dbSet h db k v1) k v2) k = some v2)
    ∧ (∀ (h : Bytes → Nat) (db : Db) (f : Frame) (k : Bytes), db.length = N →
      from_frame f = .ok (.get k) →
      process_step h (dbSet h db k []) f = .reply (.bulk []) (dbSet h db k [])
      ∧ Frame.bulk [] ≠ Frame.null) := by
  refine ⟨?_, ?_, ?_, ?_⟩
  · intro h db f k v hff
    simp [process_step, hff]
  · intro h db k v hlen
    exact dbGet_dbSet_self h db k v hlen
  · intro h db k v1 v2 hlen
    exact dbGet_dbSet_self h (dbSet h db k v1) k v2
      (by rw [length_dbSet]; exact hlen)
  · intro h db f k hlen hff
    have hget : dbGet h (dbSet h db k []) k = some [] :=
      dbGet_dbSet_self h db k [] hlen
    exact ⟨by simp [process_step, hff, hget], by simp⟩

theorem c2_set_semantics_witness :
    process_step h0 new_sharded_db
        (.array [.bulk [115, 101, 116], .bulk [107], .bulk [118]])
      = .reply (.simple [79, 75]) (dbSet h0 new_sharded_db [107] [118])
    ∧ dbGet h0 (dbSet h0 new_sharded_db [107] [118]) [107] = some [118]
    ∧ dbGet h0 (dbSet h0 (dbSet h0 new_sharded_db [107] [49]) [107] [50]) [107]
      = some [50]
    ∧ (process_step h0 (dbSet h0 new_sharded_db [107] [])
        (.array [.bulk [71, 69, 84], .bulk [107]])
      = .reply (.bulk []) (dbSet h0 new_sharded_db [107] [])
      ∧ Frame.bulk [] ≠ Frame.null) :=
  ⟨c2_set_semantics.1 h0 new_sharded_db _ [107] [118] (by rfl),
   c2_set_semantics.2.1 h0 new_sharded_db [107] [118] (by rfl),
   c2_set_semantics.2.2.1 h0 new_sharded_db [107] [49] [50] (by rfl),
   c2_set_semantics.2.2.2 h0 new_sharded_db _ [107] (by rfl) (by rfl)⟩

/-- C3: evaluation of the handler at a well-formed Array-of-Bulk frame whose
command name is unknown (PING) and at one with a wrong argument count (GET
with no argument). In both cases the reference code aborts the process (the
wildcard arm at src/main.rs line 70, and the unwrap on Command::from_frame
at line 51) instead of replying with an Error frame and continuing, which is
what the claim (and the spec, sections 4.3 and 9) prescribes. -/
theorem c3_dispatch_aborts :
    process_step h0 new_sharded_db (.array [.bulk [80, 73, 78, 71]])
      = .panicked "unimplemented"
    ∧ process_step h0 new_sharded_db (.array [.bulk [71, 69, 84]])
      = .panicked "wrong number of arguments" :=
  ⟨rfl, rfl⟩

/-- C4: when a read from the stream yields zero new bytes (peer closed) and
no complete frame is buffered, read_frame returns cleanly with no frame if
the buffer is empty, and fails with the connection reset error if a partial
frame is still buffered (src/connection.rs lines 27-34). The zero-byte read
is reached both when the chunk list is exhausted and when the next chunk is
empty. -/
theorem c4_read_frame_peer_close :
    ∀ (buffer : Bytes) (cs : List Bytes),
      parse_frame buffer = .ok (none, buffer) →
      (buffer = [] →
        read_frame buffer [] = .ok (none, buffer)
        ∧ read_frame buffer ([] :: cs) = .ok (none, buffer))
      ∧ (buffer ≠ [] →
        read_frame buffer [] = .error "connection reset by peer"
        ∧ read_frame buffer ([] :: cs) = .error "connection reset by peer") := by
  intro buffer cs hpf
  constructor
  · intro hb
    subst hb
    constructor <;> simp [read_frame, hpf]
  · intro hb
    constructor <;> simp [read_frame, hpf, hb]

theorem c4_read_frame_peer_close_witness :
    read_frame [36, 53, 13, 10, 104] [] = .error "connection reset by peer"
    ∧ read_frame ([] : Bytes) [] = .ok (none, ([] : Bytes)) :=
  ⟨(((c4_read_frame_peer_close [36, 53, 13, 10, 104] []) (by rfl)).2
      (by decide)).1,
   (((c4_read_frame_peer_close [] []) (by rfl)).1 (by rfl)).1⟩

/-- C5 (amended): for every Frame whose numeric fields (Integer value, Bulk
byte length, Array element count) print in at most 12 decimal digits — the
capacity of the conversion buffer in write_decimal — write_frame emits
exactly the wire encoding of its variant as laid out in spec section 4.1
(src/connection.rs lines 53-98). Frames with a 13-digit numeric field make
write_decimal fail instead, see the counterexample. -/
theorem c5_write_frame_wire_encoding :
    ∀ f : Frame, fitsFrame f = true → write_frame f = .ok (encodeSpec f) :=
  fun f hf => write_frame_encodes f hf

theorem c5_write_frame_wire_encoding_witness :
    fitsFrame (.array [.integer 12345, .bulk [0, 13, 10], .simple [79, 75],
        .null]) = true
    ∧ write_frame (.array [.integer 12345, .bulk [0, 13, 10], .simple [79, 75],
        .null])
      = .ok (encodeSpec (.array [.integer 12345, .bulk [0, 13, 10],
        .simple [79, 75], .null])) :=
  ⟨by rfl, c5_write_frame_wire_encoding _ (by rfl)⟩

theorem c5_write_frame_counterexample :
    write_frame (.integer (10 ^ 12)) = .error "failed to write whole buffer"
    ∧ ∀ bs : Bytes, write_frame (.integer (10 ^ 12)) ≠ .ok bs := by
  refine ⟨by rfl, ?_⟩
  intro bs hbs
  rw [show write_frame (.integer (10 ^ 12))
      = .error "failed to write whole buffer" from rfl] at hbs
  exact Except.noConfusion hbs

/-- C6: parse_frame against any buffer either returns a frame and advances
the buffer past exactly the bytes that the frame encoding occupied, leaving
every trailing byte of the next frame untouched; or reports no frame with
the buffer unchanged on the Incomplete signal; or fails on a protocol error
(src/connection.rs lines 37-52). -/
theorem c6_parse_frame_exact :
    (∀ (f : Frame) (rest : Bytes), wfFrame f = true →
      parse_frame (encodeSpec f ++ rest) = .ok (some f, rest))
    ∧ (∀ buffer : Bytes,
      decodeAux (buffer.length + 1) none buffer = .incomplete →
      parse_frame buffer = .ok (none, buffer))
    ∧ (∀ buffer : Bytes,
      decodeAux (buffer.length + 1) none buffer = .bad →
      parse_frame buffer = .error "protocol error") := by
  refine ⟨?_, ?_, ?_⟩
  · intro f rest hwf
    have hfuel : fuelOf f ≤ (encodeSpec f).length + rest.length + 1 := by
      have h1 := fuelOf_le_length f
      omega
    have hdec := decode_encodeSpec f rest ((encodeSpec f).length + rest.length + 1)
      hwf hfuel
    simp [parse_frame, hdec]
  · intro buffer hdec
    simp [parse_frame, hdec]
  · intro buffer hdec
    simp [parse_frame, hdec]

theorem c6_parse_frame_exact_witness :
    parse_frame (encodeSpec (.array [.bulk [107, 101, 121], .integer 7]) ++ [43])
      = .ok (some (.array [.bulk [107, 101, 121], .integer 7]), [43])
    ∧ parse_frame [43] = .ok (none, [43])
    ∧ parse_frame [64] = .error "protocol error" :=
  ⟨c6_parse_frame_exact.1 _ [43] (by rfl),
   c6_parse_frame_exact.2.1 [43] (by rfl),
   c6_parse_frame_exact.2.2 [64] (by rfl)⟩

/-- C7: evaluation of write_decimal at a u64 value needing 13 decimal digits.
The 12-byte conversion buffer (src/connection.rs line 103) is too small for
the full u64 range, so the formatting step fails for 10 ^ 12 (a valid u64)
while still succeeding at the largest 12-digit value, contradicting the
claim that it succeeds for every u64 input. -/
theorem c7_write_decimal_buffer_too_small :
    write_decimal (10 ^ 12) = .error "failed to write whole buffer"
    ∧ 10 ^ 12 < 2 ^ 64
    ∧ write_decimal (10 ^ 12 - 1)
      = .ok (decBytes (10 ^ 12 - 1) ++ [13, 10]) :=
  ⟨rfl, by norm_num, rfl⟩

/-- C8: the shard index of a key is its process-wide hash, truncated to u64,
reduced modulo the shard count N = 32; it always lies below N, and equal
keys always receive equal indices within one run (src/main.rs lines 23-27,
the hasher h standing for the DefaultHasher fixed for the process). -/
theorem c8_index_hash_mod :
    ∀ (h : Bytes → Nat) (key : Bytes),
      index h key = h key % 2 ^ 64 % N
      ∧ N = 32
      ∧ index h key < N
      ∧ ∀ key2 : Bytes, key2 = key → index h key2 = index h key :=
  fun h key =>
    ⟨rfl, rfl, index_lt h key, fun key2 hk => by rw [hk]⟩

theorem c8_index_hash_mod_witness :
    index h0 [104, 105] = h0 [104, 105] % 2 ^ 64 % N
    ∧ N = 32
    ∧ index h0 [104, 105] < N
    ∧ index h0 [104, 105] = index h0 [104, 105] :=
  ⟨(c8_index_hash_mod h0 [104, 105]).1,
   (c8_index_hash_mod h0 [104, 105]).2.1,
   (c8_index_hash_mod h0 [104, 105]).2.2.1,
   (c8_index_hash_mod h0 [104, 105]).2.2.2 [104, 105] rfl⟩

/-- C9: over any sequence of valid command frames arriving on one
connection, the handler loop reads a frame, dispatches it and writes its
reply before reading the next frame: the event trace is the strict
alternation read f1, write r1, read f2, write r2, ... , there is exactly one
reply per command, in arrival order, and the loop does not abort
(src/main.rs lines 44-76). -/
theorem c9_one_reply_per_request :
    ∀ (h : Bytes → Nat) (fs : List Frame) (db : Db),
      (∀ f ∈ fs, validReq f = true) →
      (process h db fs).1 = interleave fs (replies h db fs)
      ∧ (replies h db fs).length = fs.length
      ∧ (process h db fs).2.2 = none := by
  intro h fs
  induction fs with
  | nil => intro db hv; simp [process, replies, interleave]
  | cons f fs ih =>
    intro db hv
    have hvf : validReq f = true := hv f (List.mem_cons_self f fs)
    have hvfs : ∀ g ∈ fs, validReq g = true :=
      fun g hg => hv g (List.mem_cons_of_mem f hg)
    obtain ⟨r, db2, hstep⟩ : ∃ r db2, process_step h db f = .reply r db2 := by
      unfold validReq at hvf
      cases hff : from_frame f with
      | error e => rw [hff] at hvf; simp at hvf
      | ok c =>
        cases c with
        | get k =>
          cases hgg : dbGet h db k with
          | none => exact ⟨.null, db, by simp [process_step, hff, hgg]⟩
          | some v => exact ⟨.bulk v, db, by simp [process_step, hff, hgg]⟩
        | set k v =>
          exact ⟨.simple [79, 75], dbSet h db k v, by simp [process_step, hff]⟩
        | other n => rw [hff] at hvf; simp at hvf
    obtain ⟨ih1, ih2, ih3⟩ := ih db2 hvfs
    refine ⟨?_, ?_, ?_⟩
    · simp only [process, hstep, replies, interleave]
      rw [ih1]
    · simp only [replies, hstep, List.length_cons]
      rw [ih2]
    · simp only [process, hstep]
      exact ih3

theorem c9_one_reply_per_request_witness :
    (∀ f ∈ [Frame.array [.bulk [83, 69, 84], .bulk [107], .bulk [118]],
        Frame.array [.bulk [71, 69, 84], .bulk [107]]], validReq f = true)
    ∧ ((process h0 new_sharded_db
          [Frame.array [.bulk [83, 69, 84], .bulk [107], .bulk [118]],
           Frame.array [.bulk [71, 69, 84], .bulk [107]]]).1
        = interleave
            [Frame.array [.bulk [83, 69, 84], .bulk [107], .bulk [118]],
             Frame.array [.bulk [71, 69, 84], .bulk [107]]]
            (replies h0 new_sharded_db
              [Frame.array [.bulk [83, 69, 84], .bulk [107], .bulk [118]],
               Frame.array [.bulk [71, 69, 84], .bulk [107]]])
      ∧ (replies h0 new_sharded_db
          [Frame.array [.bulk [83, 69, 84], .bulk [107], .bulk [118]],
           Frame.array [.bulk [71, 69, 84], .bulk [107]]]).length
        = [Frame.array [.bulk [83, 69, 84], .bulk [107], .bulk [118]],
           Frame.array [.bulk [71, 69, 84], .bulk [107]]].length
      ∧ (process h0 new_sharded_db
          [Frame.array [.bulk [83, 69, 84], .bulk [107], .bulk [118]],
           Frame.array [.bulk [71, 69, 84], .bulk [107]]]).2.2 = none) :=
  ⟨by decide,
   c9_one_reply_per_request h0
     [Frame.array [.bulk [83, 69, 84], .bulk [107], .bulk [118]],
      Frame.array [.bulk [71, 69, 84], .bulk [107]]]
     new_sharded_db (by decide)⟩

/-- C10: handling a Get leaves the whole store untouched (the reply carries
the same db), while a Set touches only the shard its key hashes to — every
other shard is byte-for-byte unchanged — and within that shard only the
binding of the written key: every other key reads the same value before and
after (src/main.rs lines 52-69). -/
theorem c10_frame_conditions :
    (∀ (h : Bytes → Nat) (db : Db) (f : Frame) (k : Bytes),
      from_frame f = .ok (.get k) → ∃ r, process_step h db f = .reply r db)
    ∧ (∀ (h : Bytes → Nat) (db : Db) (k v : Bytes) (j : Nat),
      j ≠ index h k → (dbSet h db k v).getD j [] = db.getD j [])
    ∧ (∀ (h : Bytes → Nat) (db : Db) (k v k2 : Bytes), db.length = N →
      k2 ≠ k → dbGet h (dbSet h db k v) k2 = dbGet h db k2) := by
  refine ⟨?_, ?_, ?_⟩
  · intro h db f k hff
    cases hgg : dbGet h db k with
    | none => exact ⟨.null, by simp [process_step, hff, hgg]⟩
    | some v => exact ⟨.bulk v, by simp [process_step, hff, hgg]⟩
  · intro h db k v j hj
    exact getD_set_ne db (index h k) j _ (fun hx => hj hx.symm)
  · intro h db k v k2 hlen hne
    exact dbGet_dbSet_ne h db k v k2 hlen hne

theorem c10_frame_conditions_witness :
    (∃ r, process_step h0 (dbSet h0 new_sharded_db [97] [1])
        (.array [.bulk [71, 69, 84], .bulk [107]])
      = .reply r (dbSet h0 new_sharded_db [97] [1]))
    ∧ (dbSet h0 new_sharded_db [107] [118]).getD 7 [] = new_sharded_db.getD 7 []
    ∧ dbGet h0 (dbSet h0 new_sharded_db [107] [118]) [97]
      = dbGet h0 new_sharded_db [97] :=
  ⟨c10_frame_conditions.1 h0 _ _ [107] (by rfl),
   c10_frame_conditions.2.1 h0 new_sharded_db [107] [118] 7 (by decide),
   c10_frame_conditions.2.2 h0 new_sharded_db [107] [118] [97] (by rfl)
     (by decide)⟩
